import Mathlib

/-!
Verification of the hash_art Block Approximation Engine.

The development shallowly embeds the two Rust source files:
  * `src/main.rs`   — `Sha512CpuApproximator::approximate` (block side 8),
                      `approximate_image` (the tiling driver) and the source
                      pre-darkening done in `main`;
  * `src/compute.rs` — the same CPU approximator with block side 16, and
                      `WgpuApproximator::{approximate, run}`.

Machine-float modelling: every error value the program manufactures is a
nonnegative `f32`.  Per-block errors are sums of at most 256 terms
`(a - b)^2` with `a, b ≤ 255`; every partial sum is an integer below
`2^24`, so each `f32` subtraction, multiplication and addition in the
per-block loop is exact and the per-block error is modelled as an exact
natural number.  The only other float values are `f32::MAX` (the search
initialiser) and the driver's running total, for which genuine `f32`
rounding can occur; the model `F32` below represents a nonnegative `f32`
as an exact natural (`F32.val`) or infinity, and `F32.add` implements
IEEE round-to-nearest-even on exact integer sums, including overflow to
infinity.  External collaborators (the SHA-512 function of the `sha2`
crate, the random perturbation stream, and the GPU kernel of the missing
`shader.wgsl`) are parameters of the embedded functions.
-/

/-- Nonnegative `f32` values: an exactly represented natural number, or
`+∞`.  Every float the embedded program manipulates is nonnegative. -/
inductive F32 where
  | val : Nat → F32
  | inf : F32
deriving DecidableEq

/-- The natural number whose `f32` representation is `f32::MAX`. -/
def f32MaxNat : Nat := (2 ^ 24 - 1) * 2 ^ 104

/-- Round a natural number to the nearest `f32`-representable natural
(round-to-nearest, ties to even), ignoring the overflow threshold. -/
def f32RoundNat (m : Nat) : Nat :=
  if m < 2 ^ 24 then m
  else
    let k := m.log2 - 23
    let q := m / 2 ^ k
    let r := m % 2 ^ k
    if 2 ^ (k - 1) < r ∨ (r = 2 ^ (k - 1) ∧ q % 2 = 1) then (q + 1) * 2 ^ k else q * 2 ^ k

/-- `f32` addition of nonnegative values: round the exact sum, overflow
to `+∞` past `f32::MAX` (IEEE round-to-nearest-even). -/
def F32.add : F32 → F32 → F32
  | F32.inf, _ => F32.inf
  | F32.val _, F32.inf => F32.inf
  | F32.val a, F32.val b =>
    let s := f32RoundNat (a + b)
    if f32MaxNat < s then F32.inf else F32.val s

/-- The `f32` comparison `a > b` on nonnegative values. -/
def F32.gt : F32 → F32 → Bool
  | F32.inf, F32.inf => false
  | F32.inf, F32.val _ => true
  | F32.val _, F32.inf => false
  | F32.val a, F32.val b => b < a

/-- The `f32` comparison `a <= b` on nonnegative values. -/
def F32.le : F32 → F32 → Bool
  | F32.inf, F32.inf => true
  | F32.inf, F32.val _ => false
  | F32.val _, F32.inf => true
  | F32.val a, F32.val b => a ≤ b

/-- `const DISTORTION: u8 = 2;` (same value in both source files). -/
def DISTORTION : Nat := 2

/-- A block: a square grid of 8-bit intensities, indexed row-first like
the `ndarray` views `input[[m, n]]` of the source (`m` = row, `n` =
column).  Only indices below the block side are meaningful. -/
abbrev Block := Nat → Nat → Nat

/-- `Array2::<u8>::zeros((N, N))` — the zero-initialised block. -/
def zeroBlock : Block := fun _ _ => 0

/-- `current_origin.as_slice().unwrap()` — the row-major flattening of a
block of side `n`, as fed to the hasher. -/
def flattenBlock (n : Nat) (b : Block) : List Nat :=
  (List.range (n * n)).map fun k => b (k / n) (k % n)

/-- `delta + input` — element-wise `u8` addition of two blocks of side
`n`.  Rust's `+` on `u8` treats overflow as a program error (it panics
under the default debug profile); the model returns `none` exactly when
some element sum exceeds 255, and the exact sums otherwise. -/
def blockAddChecked (n : Nat) (a b : Block) : Option Block :=
  if ∀ r, r < n → ∀ c, c < n → a r c + b r c ≤ 255 then
    some (fun r c => a r c + b r c)
  else none

/-- `Array::from_iter(result).into_shape((n, n))` — reshaping a byte
sequence into an `n × n` row-major grid.  `into_shape` fails (and the
source's `.unwrap()` panics) unless the length is exactly `n * n`. -/
def intoShape (n : Nat) (bytes : List Nat) : Option (List (List Nat)) :=
  if bytes.length = n * n then
    some ((List.range n).map fun r => (List.range n).map fun c => bytes.getD (r * n + c) 0)
  else none

/-- The reshape of `intoShape` packaged as an indexing function: element
`(r, c)` of the reshaped grid is byte `r * n + c`, which is exactly how
the source reads `current_target[[m, n]]`. -/
def mapBytesToBlock (n : Nat) (bytes : List Nat) : Option Block :=
  if bytes.length = n * n then some (fun r c => bytes.getD (r * n + c) 0) else none

/-- The per-iteration error loop of `approximate`: the sum over all
cells of `(target[[m,n]] as f32 - current_target[[m,n]] as f32)^2`.
All cell values are at most 255 and the running `f32` sum stays below
`2^24`, so every float operation is exact and the result is this
natural number. -/
def squaredErrorNat (n : Nat) (target current : Block) : Nat :=
  ((List.range n).map fun m =>
    ((List.range n).map fun c =>
      ((target m c : Int) - (current m c : Int)).natAbs ^ 2).sum).sum

/-- One iteration of `Sha512CpuApproximator::approximate`: add the
perturbation, hash, reshape the digest, score it, and replace the best
triple when the best error so far is strictly greater.  `none` models
a panic (element overflow, or a digest that does not reshape). -/
def sha512CpuStep (n : Nat) (hash : List Nat → List Nat) (input target : Block)
    (st : F32 × Block × Block) (delta : Block) : Option (F32 × Block × Block) :=
  match blockAddChecked n input delta with
  | none => none
  | some currentOrigin =>
    match mapBytesToBlock n (hash (flattenBlock n currentOrigin)) with
    | none => none
    | some currentTarget =>
      let totalError := F32.val (squaredErrorNat n target currentTarget)
      if F32.gt st.1 totalError then some (totalError, currentOrigin, currentTarget)
      else some st

/-- The iteration loop of `approximate` over an explicit list of sampled
perturbations (the program draws them from a process-wide random
source; the list is the drawn sequence, its length the iteration count). -/
def sha512CpuLoop (n : Nat) (hash : List Nat → List Nat) (input target : Block) :
    List Block → F32 × Block × Block → Option (F32 × Block × Block)
  | [], st => some st
  | d :: ds, st =>
    match sha512CpuStep n hash input target st d with
    | none => none
    | some st' => sha512CpuLoop n hash input target ds st'

/-- `Sha512CpuApproximator::approximate`: run the loop from the
zero-initialised search state with best error `f32::MAX`.  The block
side `n` is 8 in `main.rs` and 16 in `compute.rs`; `hash` stands for
the external SHA-512 digest function. -/
def sha512CpuApproximate (n : Nat) (hash : List Nat → List Nat)
    (deltas : List Block) (input target : Block) : Option (F32 × Block × Block) :=
  sha512CpuLoop n hash input target deltas (F32.val f32MaxNat, zeroBlock, zeroBlock)

/-- The candidate source of one trial, `delta + input`, at the exact
(no-overflow) element sums. -/
def trialCandidate (input d : Block) : Block := fun r c => input r c + d r c

/-- The digest block of one trial: the hashed flattened candidate,
reshaped row-major. -/
def trialDigest (n : Nat) (hash : List Nat → List Nat) (input d : Block) : Block :=
  fun r c => (hash (flattenBlock n (trialCandidate input d))).getD (r * n + c) 0

/-- The per-iteration squared error of one trial. -/
def trialErrorNat (n : Nat) (hash : List Nat → List Nat) (input target d : Block) : Nat :=
  squaredErrorNat n target (trialDigest n hash input d)

/-- The pure (panic-free) content of one loop iteration, used to state
and prove properties of the search. -/
def pureBestStep (n : Nat) (hash : List Nat → List Nat) (input target : Block)
    (st : F32 × Block × Block) (d : Block) : F32 × Block × Block :=
  let e := F32.val (trialErrorNat n hash input target d)
  if F32.gt st.1 e then (e, trialCandidate input d, trialDigest n hash input d) else st

/-- The search loop as a pure fold of `pureBestStep`. -/
def pureBest (n : Nat) (hash : List Nat → List Nat) (input target : Block)
    (deltas : List Block) (st : F32 × Block × Block) : F32 × Block × Block :=
  deltas.foldl (pureBestStep n hash input target) st

/-- `const OVERFLOW: u8 = 0xff;` — the kernel backend's sentinel byte. -/
def OVERFLOW : Nat := 255

/-- `WgpuApproximator::run`: feed the bytes to the compute kernel
(`kernel` abstracts the successful result of `execute_gpu`, whose WGSL
shader is external to the embedded sources) and remap every sentinel
byte to 0. -/
def wgpuRun (kernel : List Nat → List Nat) (numbers : List Nat) : List Nat :=
  (kernel numbers).map fun b => if b = OVERFLOW then 0 else b

/-- `WgpuApproximator::approximate` (block side 16 in `compute.rs`):
run the kernel over the flattened input, reshape via
`Array2::from_shape_vec((N, N), vals)` (which fails unless the length
is `N * N`), and return error `0.0` together with the unmodified input. -/
def wgpuApproximate (kernel : List Nat → List Nat) (input _target : Block) :
    Option (F32 × Block × Block) :=
  (mapBytesToBlock 16 (wgpuRun kernel (flattenBlock 16 input))).map
    fun result => (F32.val 0, input, result)

/-- A grayscale image: dimensions plus an intensity for each pixel
coordinate `(x, y)`.  Only coordinates inside the dimensions are
meaningful. -/
structure Image where
  width : Nat
  height : Nat
  pix : Nat → Nat → Nat

/-- `put_pixel(x, y, v)`. -/
def putPixel (img : Image) (x y v : Nat) : Image :=
  { img with pix := fun a b => if a = x ∧ b = y then v else img.pix a b }

/-- The inner write loop `for m in 0..8 { put_pixel(i*8+m, j*8+n, block[(n, m)]) }`
of `approximate_image`, for one row `y` of the output region; `brow m`
is the written value `block[(n, m)]`. -/
def writeRowAux (x0 y : Nat) (brow : Nat → Nat) : Nat → Image → Image
  | 0, img => img
  | m + 1, img => putPixel (writeRowAux x0 y brow m img) (x0 + m) y (brow m)

/-- The outer write loop `for n in 0..8` of `approximate_image`, writing
`k` rows of block `b` at offset `(x0, y0)`. -/
def writeBlockAux (x0 y0 : Nat) (b : Block) : Nat → Image → Image
  | 0, img => img
  | k + 1, img => writeRowAux x0 (y0 + k) (fun m => b k m) 8 (writeBlockAux x0 y0 b k img)

/-- Writing one approximated block into an output image at tile `(i, j)`,
exactly as the nested `put_pixel` loops of `approximate_image` do. -/
def writeBlock (img : Image) (i j : Nat) (b : Block) : Image :=
  writeBlockAux (i * 8) (j * 8) b 8 img

/-- The 8 × 8 block of an image at tile `(i, j)`:
`crop(img, i*8, j*8, 8, 8)` viewed through `ref_ndarray2`, whose entry
`[[r, c]]` is the pixel `(i*8 + c, j*8 + r)`. -/
def blockAt (img : Image) (i j : Nat) : Block :=
  fun r c => img.pix (i * 8 + c) (j * 8 + r)

/-- The tile indices visited by `approximate_image`:
`for i in 0..(dim.0 / 8) { for j in 0..(dim.1 / 8) { ... } }`. -/
def tiles (w h : Nat) : List (Nat × Nat) :=
  (List.range (w / 8)).flatMap fun i => (List.range (h / 8)).map fun j => (i, j)

/-- The pixel offsets `(i*8, j*8)` of the visited tiles, in visit order. -/
def tileOffsets (w h : Nat) : List (Nat × Nat) :=
  (tiles w h).map fun ij => (ij.1 * 8, ij.2 * 8)

/-- One iteration of the driver loop: extract the block pair, invoke the
approximator, write both returned blocks at the tile offset, and add the
returned error to the running total. -/
def approxDriverStep (approx : Block → Block → F32 × Block × Block)
    (input target : Image) (st : Image × Image × F32) (ij : Nat × Nat) :
    Image × Image × F32 :=
  let res := approx (blockAt input ij.1 ij.2) (blockAt target ij.1 ij.2)
  (writeBlock st.1 ij.1 ij.2 res.2.1,
   writeBlock st.2.1 ij.1 ij.2 res.2.2,
   F32.add st.2.2 res.1)

/-- The full state of `approximate_image`: both output images (each
initialised to `imageops::grayscale(input)`, a per-pixel copy of the
already-gray source) and the running `total_error` starting at `0.0`. -/
def approximateImageRun (approx : Block → Block → F32 × Block × Block)
    (input target : Image) : Image × Image × F32 :=
  (tiles input.width input.height).foldl (approxDriverStep approx input target)
    (⟨input.width, input.height, input.pix⟩, ⟨input.width, input.height, input.pix⟩, F32.val 0)

/-- The value `approximate_image` returns to its caller:
`(result_origin, result_target)`. -/
def approximateImage (approx : Block → Block → F32 × Block × Block)
    (input target : Image) : Image × Image :=
  ((approximateImageRun approx input target).1, (approximateImageRun approx input target).2.1)

/-- The accumulated `total_error` of `approximate_image`; the source
only prints it (`println!("Total error: {total_error}")`). -/
def approximateImageTotalError (approx : Block → Block → F32 × Block × Block)
    (input target : Image) : F32 :=
  (approximateImageRun approx input target).2.2

/-- The per-block errors the driver accumulates, in visit order. -/
def blockErrors (approx : Block → Block → F32 × Block × Block)
    (input target : Image) : List F32 :=
  (tiles input.width input.height).map fun ij =>
    (approx (blockAt input ij.1 ij.2) (blockAt target ij.1 ij.2)).1

/-- The source pre-darkening in `main`:
`map_colors(&origin, |p| Luma([p[0].saturating_sub(DISTORTION)]))`.
Natural subtraction is exactly `saturating_sub`. -/
def darkenPixel (p : Nat) : Nat := p - DISTORTION

/-- A stand-in for the external digest function in concrete
instantiations: 64 zero bytes, the length of a SHA-512 digest. -/
def hashConst : List Nat → List Nat := fun _ => List.replicate 64 0

/-- A constant approximator with error `0.0` (concrete instantiations). -/
def approxConstA : Block → Block → F32 × Block × Block :=
  fun _ _ => (F32.val 0, zeroBlock, zeroBlock)

/-- A constant approximator with error `4.0`, returning the same blocks
as `approxConstA` (concrete instantiations). -/
def approxConstB : Block → Block → F32 × Block × Block :=
  fun _ _ => (F32.val 4, zeroBlock, zeroBlock)

/-- `Sha512CpuApproximator::new(0).approximate` as a total function: with
zero iterations the loop body never runs and the zero-initialised search
state `(f32::MAX, zeros, zeros)` is returned unconditionally. -/
def approxK0 : Block → Block → F32 × Block × Block :=
  fun _ _ => (F32.val f32MaxNat, zeroBlock, zeroBlock)

/-- A concrete 8 × 8 image of constant intensity 7. -/
def img8 : Image := ⟨8, 8, fun _ _ => 7⟩

/-- A concrete 16 × 16 image of constant intensity 7. -/
def img16 : Image := ⟨16, 16, fun _ _ => 7⟩

/-- A concrete 10 × 10 image (dimensions not a multiple of 8). -/
def img10 : Image := ⟨10, 10, fun a b => a + b⟩

/-! ## Write-loop characterisations -/

theorem putPixel_pix (img : Image) (x y v a b : Nat) :
    (putPixel img x y v).pix a b = if a = x ∧ b = y then v else img.pix a b := rfl

theorem writeRowAux_pix (x0 y : Nat) (brow : Nat → Nat) :
    ∀ (m : Nat) (img : Image) (a b : Nat),
      (writeRowAux x0 y brow m img).pix a b =
        if x0 ≤ a ∧ a < x0 + m ∧ b = y then brow (a - x0) else img.pix a b := by
  intro m
  induction m with
  | zero =>
    intro img a b
    simp only [writeRowAux]
    have : ¬ (x0 ≤ a ∧ a < x0 + 0 ∧ b = y) := by omega
    rw [if_neg this]
  | succ m ih =>
    intro img a b
    simp only [writeRowAux, putPixel_pix, ih]
    by_cases h1 : a = x0 + m ∧ b = y
    · rw [if_pos h1]
      have hcond : x0 ≤ a ∧ a < x0 + (m + 1) ∧ b = y := by omega
      rw [if_pos hcond]
      have : a - x0 = m := by omega
      rw [this]
    · rw [if_neg h1]
      by_cases h2 : x0 ≤ a ∧ a < x0 + m ∧ b = y
      · rw [if_pos h2, if_pos (by omega : x0 ≤ a ∧ a < x0 + (m + 1) ∧ b = y)]
      · rw [if_neg h2, if_neg (by omega : ¬ (x0 ≤ a ∧ a < x0 + (m + 1) ∧ b = y))]

theorem writeBlockAux_pix (x0 y0 : Nat) (bl : Block) :
    ∀ (k : Nat) (img : Image) (a b : Nat),
      (writeBlockAux x0 y0 bl k img).pix a b =
        if x0 ≤ a ∧ a < x0 + 8 ∧ y0 ≤ b ∧ b < y0 + k then bl (b - y0) (a - x0)
        else img.pix a b := by
  intro k
  induction k with
  | zero =>
    intro img a b
    simp only [writeBlockAux]
    rw [if_neg (by omega : ¬ (x0 ≤ a ∧ a < x0 + 8 ∧ y0 ≤ b ∧ b < y0 + 0))]
  | succ k ih =>
    intro img a b
    simp only [writeBlockAux, writeRowAux_pix, ih]
    by_cases h1 : x0 ≤ a ∧ a < x0 + 8 ∧ b = y0 + k
    · rw [if_pos h1, if_pos (by omega : x0 ≤ a ∧ a < x0 + 8 ∧ y0 ≤ b ∧ b < y0 + (k + 1))]
      have : b - y0 = k := by omega
      rw [this]
    · rw [if_neg h1]
      by_cases h2 : x0 ≤ a ∧ a < x0 + 8 ∧ y0 ≤ b ∧ b < y0 + k
      · rw [if_pos h2,
          if_pos (by omega : x0 ≤ a ∧ a < x0 + 8 ∧ y0 ≤ b ∧ b < y0 + (k + 1))]
      · rw [if_neg h2,
          if_neg (by omega : ¬ (x0 ≤ a ∧ a < x0 + 8 ∧ y0 ≤ b ∧ b < y0 + (k + 1)))]

theorem writeBlock_pix (img : Image) (i j : Nat) (bl : Block) (a b : Nat) :
    (writeBlock img i j bl).pix a b =
      if a / 8 = i ∧ b / 8 = j then bl (b % 8) (a % 8) else img.pix a b := by
  unfold writeBlock
  rw [writeBlockAux_pix]
  by_cases h : a / 8 = i ∧ b / 8 = j
  · rw [if_pos (by omega : i * 8 ≤ a ∧ a < i * 8 + 8 ∧ j * 8 ≤ b ∧ b < j * 8 + 8), if_pos h]
    have hb : b - j * 8 = b % 8 := by omega
    have ha : a - i * 8 = a % 8 := by omega
    rw [hb, ha]
  · rw [if_neg (by omega : ¬ (i * 8 ≤ a ∧ a < i * 8 + 8 ∧ j * 8 ≤ b ∧ b < j * 8 + 8)),
      if_neg h]

theorem putPixel_width (img : Image) (x y v : Nat) : (putPixel img x y v).width = img.width := rfl

theorem putPixel_height (img : Image) (x y v : Nat) :
    (putPixel img x y v).height = img.height := rfl

theorem writeRowAux_dims (x0 y : Nat) (brow : Nat → Nat) :
    ∀ (m : Nat) (img : Image),
      (writeRowAux x0 y brow m img).width = img.width ∧
      (writeRowAux x0 y brow m img).height = img.height := by
  intro m
  induction m with
  | zero => intro img; exact ⟨rfl, rfl⟩
  | succ m ih =>
    intro img
    simp only [writeRowAux, putPixel_width, putPixel_height]
    exact ih img

theorem writeBlockAux_dims (x0 y0 : Nat) (bl : Block) :
    ∀ (k : Nat) (img : Image),
      (writeBlockAux x0 y0 bl k img).width = img.width ∧
      (writeBlockAux x0 y0 bl k img).height = img.height := by
  intro k
  induction k with
  | zero => intro img; exact ⟨rfl, rfl⟩
  | succ k ih =>
    intro img
    simp only [writeBlockAux]
    rw [(writeRowAux_dims _ _ _ 8 _).1, (writeRowAux_dims _ _ _ 8 _).2]
    exact ih img

theorem writeBlock_dims (img : Image) (i j : Nat) (bl : Block) :
    (writeBlock img i j bl).width = img.width ∧
    (writeBlock img i j bl).height = img.height :=
  writeBlockAux_dims (i * 8) (j * 8) bl 8 img

/-! ## Driver-loop characterisations -/

theorem mem_tiles (w h : Nat) (ij : Nat × Nat) :
    ij ∈ tiles w h ↔ ij.1 < w / 8 ∧ ij.2 < h / 8 := by
  obtain ⟨i, j⟩ := ij
  simp only [tiles, List.mem_flatMap, List.mem_map, List.mem_range, Prod.mk.injEq]
  constructor
  · rintro ⟨i', hi', j', hj', rfl, rfl⟩
    exact ⟨hi', hj'⟩
  · rintro ⟨hi, hj⟩
    exact ⟨i, hi, j, hj, rfl, rfl⟩

theorem driverFold_pix (approx : Block → Block → F32 × Block × Block)
    (input target : Image) :
    ∀ (l : List (Nat × Nat)) (st : Image × Image × F32) (a b : Nat),
      ((l.foldl (approxDriverStep approx input target) st).1.pix a b =
        if (a / 8, b / 8) ∈ l then
          (approx (blockAt input (a / 8) (b / 8)) (blockAt target (a / 8) (b / 8))).2.1
            (b % 8) (a % 8)
        else st.1.pix a b) ∧
      ((l.foldl (approxDriverStep approx input target) st).2.1.pix a b =
        if (a / 8, b / 8) ∈ l then
          (approx (blockAt input (a / 8) (b / 8)) (blockAt target (a / 8) (b / 8))).2.2
            (b % 8) (a % 8)
        else st.2.1.pix a b) := by
  intro l
  induction l with
  | nil =>
    intro st a b
    simp
  | cons ij l ih =>
    intro st a b
    obtain ⟨i0, j0⟩ := ij
    simp only [List.foldl_cons]
    have hstep1 : (approxDriverStep approx input target st (i0, j0)).1 =
        writeBlock st.1 i0 j0
          (approx (blockAt input i0 j0) (blockAt target i0 j0)).2.1 := rfl
    have hstep2 : (approxDriverStep approx input target st (i0, j0)).2.1 =
        writeBlock st.2.1 i0 j0
          (approx (blockAt input i0 j0) (blockAt target i0 j0)).2.2 := rfl
    by_cases hmem : (a / 8, b / 8) ∈ l
    · rw [(ih _ a b).1, (ih _ a b).2, if_pos hmem, if_pos hmem,
        if_pos (List.mem_cons_of_mem _ hmem), if_pos (List.mem_cons_of_mem _ hmem)]
      exact ⟨rfl, rfl⟩
    · rw [(ih _ a b).1, (ih _ a b).2, if_neg hmem, if_neg hmem, hstep1, hstep2,
        writeBlock_pix, writeBlock_pix]
      by_cases heq : a / 8 = i0 ∧ b / 8 = j0
      · obtain ⟨h1, h2⟩ := heq
        subst h1; subst h2
        simp
      · have hne : (a / 8, b / 8) ∉ (i0, j0) :: l := by
          intro hc
          rcases List.mem_cons.mp hc with hc | hc
          · exact heq ⟨congrArg Prod.fst hc, congrArg Prod.snd hc⟩
          · exact hmem hc
        rw [if_neg heq, if_neg heq, if_neg hne, if_neg hne]
        exact ⟨rfl, rfl⟩

theorem driverFold_total (approx : Block → Block → F32 × Block × Block)
    (input target : Image) :
    ∀ (l : List (Nat × Nat)) (st : Image × Image × F32),
      (l.foldl (approxDriverStep approx input target) st).2.2 =
        (l.map fun ij =>
          (approx (blockAt input ij.1 ij.2) (blockAt target ij.1 ij.2)).1).foldl
          F32.add st.2.2 := by
  intro l
  induction l with
  | nil => intro st; rfl
  | cons ij l ih =>
    intro st
    simp only [List.foldl_cons, List.map_cons]
    rw [ih]
    rfl

theorem driverFold_dims (approx : Block → Block → F32 × Block × Block)
    (input target : Image) :
    ∀ (l : List (Nat × Nat)) (st : Image × Image × F32),
      ((l.foldl (approxDriverStep approx input target) st).1.width = st.1.width ∧
       (l.foldl (approxDriverStep approx input target) st).1.height = st.1.height) ∧
      ((l.foldl (approxDriverStep approx input target) st).2.1.width = st.2.1.width ∧
       (l.foldl (approxDriverStep approx input target) st).2.1.height = st.2.1.height) := by
  intro l
  induction l with
  | nil => intro st; exact ⟨⟨rfl, rfl⟩, ⟨rfl, rfl⟩⟩
  | cons ij l ih =>
    intro st
    simp only [List.foldl_cons]
    obtain ⟨⟨h1, h2⟩, h3, h4⟩ := ih (approxDriverStep approx input target st ij)
    refine ⟨⟨?_, ?_⟩, ?_, ?_⟩
    · rw [h1]; exact (writeBlock_dims _ _ _ _).1
    · rw [h2]; exact (writeBlock_dims _ _ _ _).2
    · rw [h3]; exact (writeBlock_dims _ _ _ _).1
    · rw [h4]; exact (writeBlock_dims _ _ _ _).2

/-! ## Search-loop characterisations -/

theorem sha512CpuStep_eq (n : Nat) (hash : List Nat → List Nat) (input target : Block)
    (st : F32 × Block × Block) (d : Block)
    (hlen : (hash (flattenBlock n (trialCandidate input d))).length = n * n)
    (hov : ∀ r, r < n → ∀ c, c < n → input r c + d r c ≤ 255) :
    sha512CpuStep n hash input target st d =
      some (pureBestStep n hash input target st d) := by
  have h1 : blockAddChecked n input d = some (trialCandidate input d) := by
    unfold blockAddChecked trialCandidate
    exact if_pos hov
  have h2 : mapBytesToBlock n (hash (flattenBlock n (trialCandidate input d))) =
      some (trialDigest n hash input d) := by
    unfold mapBytesToBlock trialDigest
    exact if_pos hlen
  simp only [sha512CpuStep, h1, h2, pureBestStep, trialErrorNat]
  rw [apply_ite Option.some]

theorem sha512CpuLoop_eq_pureBest (n : Nat) (hash : List Nat → List Nat)
    (input target : Block) (hlen : ∀ bs, (hash bs).length = n * n) :
    ∀ (ds : List Block) (st : F32 × Block × Block),
      (∀ d ∈ ds, ∀ r, r < n → ∀ c, c < n → input r c + d r c ≤ 255) →
      sha512CpuLoop n hash input target ds st =
        some (pureBest n hash input target ds st) := by
  intro ds
  induction ds with
  | nil => intro st _; rfl
  | cons d ds ih =>
    intro st hov
    have hstep := sha512CpuStep_eq n hash input target st d (hlen _)
      (hov d (List.mem_cons_self d ds))
    simp only [sha512CpuLoop, hstep]
    rw [ih _ fun d' hd' => hov d' (List.mem_cons_of_mem d hd')]
    rfl

theorem pureBestStep_replace (n : Nat) (hash : List Nat → List Nat)
    (input target : Block) (e0 : Nat) (c0 d0 : Block) (d : Block)
    (h : trialErrorNat n hash input target d < e0) :
    pureBestStep n hash input target (F32.val e0, c0, d0) d =
      (F32.val (trialErrorNat n hash input target d), trialCandidate input d,
        trialDigest n hash input d) := by
  unfold pureBestStep
  rw [if_pos]
  show F32.gt (F32.val e0) (F32.val (trialErrorNat n hash input target d)) = true
  exact decide_eq_true h

theorem pureBestStep_keep (n : Nat) (hash : List Nat → List Nat)
    (input target : Block) (e0 : Nat) (c0 d0 : Block) (d : Block)
    (h : ¬ trialErrorNat n hash input target d < e0) :
    pureBestStep n hash input target (F32.val e0, c0, d0) d = (F32.val e0, c0, d0) := by
  unfold pureBestStep
  rw [if_neg]
  show ¬ F32.gt (F32.val e0) (F32.val (trialErrorNat n hash input target d)) = true
  simp only [F32.gt]
  exact fun hc => h (of_decide_eq_true hc)

theorem pureBest_char (n : Nat) (hash : List Nat → List Nat) (input target : Block) :
    ∀ (ds : List Block) (e0 : Nat) (c0 d0 : Block),
      (pureBest n hash input target ds (F32.val e0, c0, d0) = (F32.val e0, c0, d0) ∧
        ∀ j, j < ds.length → e0 ≤ trialErrorNat n hash input target (ds.getD j zeroBlock))
      ∨ (∃ i, i < ds.length ∧
          trialErrorNat n hash input target (ds.getD i zeroBlock) < e0 ∧
          (∀ j, j < ds.length →
            trialErrorNat n hash input target (ds.getD i zeroBlock) ≤
              trialErrorNat n hash input target (ds.getD j zeroBlock)) ∧
          (∀ j, j < i →
            trialErrorNat n hash input target (ds.getD i zeroBlock) <
              trialErrorNat n hash input target (ds.getD j zeroBlock)) ∧
          pureBest n hash input target ds (F32.val e0, c0, d0) =
            (F32.val (trialErrorNat n hash input target (ds.getD i zeroBlock)),
             trialCandidate input (ds.getD i zeroBlock),
             trialDigest n hash input (ds.getD i zeroBlock))) := by
  intro ds
  induction ds with
  | nil =>
    intro e0 c0 d0
    left
    exact ⟨rfl, fun j hj => absurd hj (by simp)⟩
  | cons d ds ih =>
    intro e0 c0 d0
    have hcons : pureBest n hash input target (d :: ds) (F32.val e0, c0, d0) =
        pureBest n hash input target ds
          (pureBestStep n hash input target (F32.val e0, c0, d0) d) := rfl
    by_cases hlt : trialErrorNat n hash input target d < e0
    · rw [hcons, pureBestStep_replace n hash input target e0 c0 d0 d hlt]
      rcases ih (trialErrorNat n hash input target d) (trialCandidate input d)
          (trialDigest n hash input d) with ⟨heq, hall⟩ | ⟨i, hi, hlt2, hmin, hearl, heq⟩
      · right
        refine ⟨0, by simp, ?_, ?_, ?_, ?_⟩
        · simpa using hlt
        · intro j hj
          cases j with
          | zero => simp
          | succ j =>
            simp only [List.getD_cons_zero, List.getD_cons_succ]
            exact hall j (by simpa using hj)
        · intro j hj; omega
        · simpa using heq
      · right
        refine ⟨i + 1, by simpa using hi, ?_, ?_, ?_, ?_⟩
        · simp only [List.getD_cons_succ]
          exact lt_trans hlt2 hlt
        · intro j hj
          cases j with
          | zero =>
            simp only [List.getD_cons_succ, List.getD_cons_zero]
            exact le_of_lt hlt2
          | succ j =>
            simp only [List.getD_cons_succ]
            exact hmin j (by simpa using hj)
        · intro j hj
          cases j with
          | zero =>
            simp only [List.getD_cons_succ, List.getD_cons_zero]
            exact hlt2
          | succ j =>
            simp only [List.getD_cons_succ]
            exact hearl j (by omega)
        · simpa using heq
    · rw [hcons, pureBestStep_keep n hash input target e0 c0 d0 d hlt]
      rcases ih e0 c0 d0 with ⟨heq, hall⟩ | ⟨i, hi, hlt2, hmin, hearl, heq⟩
      · left
        refine ⟨heq, ?_⟩
        intro j hj
        cases j with
        | zero => simp only [List.getD_cons_zero]; omega
        | succ j =>
          simp only [List.getD_cons_succ]
          exact hall j (by simpa using hj)
      · right
        refine ⟨i + 1, by simpa using hi, ?_, ?_, ?_, ?_⟩
        · simp only [List.getD_cons_succ]
          exact hlt2
        · intro j hj
          cases j with
          | zero =>
            simp only [List.getD_cons_succ, List.getD_cons_zero]
            omega
          | succ j =>
            simp only [List.getD_cons_succ]
            exact hmin j (by simpa using hj)
        · intro j hj
          cases j with
          | zero =>
            simp only [List.getD_cons_succ, List.getD_cons_zero]
            omega
          | succ j =>
            simp only [List.getD_cons_succ]
            exact hearl j (by omega)
        · simpa using heq

theorem pureBest_err (n : Nat) (hash : List Nat → List Nat) (input target : Block) :
    ∀ (ds : List Block) (st : F32 × Block × Block),
      (pureBest n hash input target ds st).1 =
        ds.foldl
          (fun a d =>
            if F32.gt a (F32.val (trialErrorNat n hash input target d)) then
              F32.val (trialErrorNat n hash input target d)
            else a)
          st.1 := by
  intro ds
  induction ds with
  | nil => intro st; rfl
  | cons d ds ih =>
    intro st
    have hcons : pureBest n hash input target (d :: ds) st =
        pureBest n hash input target ds (pureBestStep n hash input target st d) := rfl
    rw [hcons, ih]
    simp only [List.foldl_cons]
    congr 1
    unfold pureBestStep
    exact apply_ite Prod.fst _ _ _

theorem F32.le_refl (a : F32) : F32.le a a = true := by
  cases a <;> simp [F32.le]

theorem F32.le_of_gt {a e : F32} (h : F32.gt a e = true) : F32.le e a = true := by
  cases a <;> cases e <;> simp_all [F32.gt, F32.le]
  omega

theorem F32.le_step_self (a e : F32) : F32.le (if F32.gt a e then e else a) a = true := by
  by_cases h : F32.gt a e = true
  · rw [if_pos h]; exact F32.le_of_gt h
  · rw [if_neg h]; exact F32.le_refl a

theorem getD_le_of_forall {l : List Nat} (h : ∀ v ∈ l, v ≤ 255) (i : Nat) :
    l.getD i 0 ≤ 255 := by
  induction l generalizing i with
  | nil => simp
  | cons a l ih =>
    cases i with
    | zero => exact h a (List.mem_cons_self a l)
    | succ i =>
      simp only [List.getD_cons_succ]
      exact ih (fun v hv => h v (List.mem_cons_of_mem a hv)) i

theorem squaredErrorNat_le (n : Nat) (target current : Block)
    (ht : ∀ r, r < n → ∀ c, c < n → target r c ≤ 255)
    (hc : ∀ r, r < n → ∀ c, c < n → current r c ≤ 255) :
    squaredErrorNat n target current ≤ n * n * 65025 := by
  unfold squaredErrorNat
  have hrow : ∀ m, m < n →
      ((List.range n).map fun c =>
        ((target m c : Int) - (current m c : Int)).natAbs ^ 2).sum ≤ n * 65025 := by
    intro m hm
    have hterm : ∀ x ∈ (List.range n).map fun c =>
        ((target m c : Int) - (current m c : Int)).natAbs ^ 2, x ≤ 65025 := by
      intro x hx
      obtain ⟨c, hcmem, rfl⟩ := List.mem_map.mp hx
      have hcn := List.mem_range.mp hcmem
      have h1 := ht m hm c hcn
      have h2 := hc m hm c hcn
      have habs : ((target m c : Int) - (current m c : Int)).natAbs ≤ 255 := by omega
      calc ((target m c : Int) - (current m c : Int)).natAbs ^ 2
          ≤ 255 ^ 2 := Nat.pow_le_pow_left habs 2
        _ = 65025 := by norm_num
    calc ((List.range n).map fun c =>
          ((target m c : Int) - (current m c : Int)).natAbs ^ 2).sum
        ≤ ((List.range n).map fun c =>
          ((target m c : Int) - (current m c : Int)).natAbs ^ 2).length * 65025 := by
          exact List.sum_le_card_nsmul _ _ hterm
      _ = n * 65025 := by simp
  have houter : ∀ x ∈ (List.range n).map fun m =>
      ((List.range n).map fun c =>
        ((target m c : Int) - (current m c : Int)).natAbs ^ 2).sum, x ≤ n * 65025 := by
    intro x hx
    obtain ⟨m, hmmem, rfl⟩ := List.mem_map.mp hx
    exact hrow m (List.mem_range.mp hmmem)
  calc ((List.range n).map fun m =>
        ((List.range n).map fun c =>
          ((target m c : Int) - (current m c : Int)).natAbs ^ 2).sum).sum
      ≤ ((List.range n).map fun m =>
        ((List.range n).map fun c =>
          ((target m c : Int) - (current m c : Int)).natAbs ^ 2).sum).length * (n * 65025) := by
        exact List.sum_le_card_nsmul _ _ houter
    _ = n * (n * 65025) := by simp
    _ = n * n * 65025 := by ring

theorem trialErrorNat_lt_max (n : Nat) (hash : List Nat → List Nat)
    (input target d : Block) (hn : n ≤ 16)
    (ht : ∀ r, r < n → ∀ c, c < n → target r c ≤ 255)
    (hhb : ∀ bs, ∀ v ∈ hash bs, v ≤ 255) :
    trialErrorNat n hash input target d < f32MaxNat := by
  have hdig : ∀ r, r < n → ∀ c, c < n → trialDigest n hash input d r c ≤ 255 := by
    intro r _ c _
    exact getD_le_of_forall (hhb _) _
  have hle := squaredErrorNat_le n target (trialDigest n hash input d) ht hdig
  have hbound : n * n * 65025 ≤ 16 * 16 * 65025 :=
    Nat.mul_le_mul_right 65025 (Nat.mul_le_mul hn hn)
  have : (16 * 16 * 65025 : Nat) < f32MaxNat := by
    unfold f32MaxNat
    norm_num
  unfold trialErrorNat at *
  omega

/-! ## Claim theorems -/

/-- C1: for every input block pair and every iteration count (the length
of the sampled perturbation list), `Sha512CpuApproximator::approximate`
returns the triple `(best_error, best_candidate_source, best_digest_block)`
in which the best error is the minimum per-iteration squared error over
the trials, the best triple is replaced only on a strictly smaller error,
and ties keep the earlier candidate; with zero trials the zero-initialised
state `(f32::MAX, zeros, zeros)` is returned. -/
theorem sha512CpuApproximate_min_earliest
    (n : Nat) (hash : List Nat → List Nat) (deltas : List Block) (input target : Block)
    (hn : n ≤ 16)
    (hlen : ∀ bs, (hash bs).length = n * n)
    (hov : ∀ d ∈ deltas, ∀ r, r < n → ∀ c, c < n → input r c + d r c ≤ 255)
    (ht : ∀ r, r < n → ∀ c, c < n → target r c ≤ 255)
    (hhb : ∀ bs, ∀ v ∈ hash bs, v ≤ 255) :
    ∃ st, sha512CpuApproximate n hash deltas input target = some st ∧
      ((deltas = [] ∧ st = (F32.val f32MaxNat, zeroBlock, zeroBlock)) ∨
       (∃ i, i < deltas.length ∧
         st = (F32.val (trialErrorNat n hash input target (deltas.getD i zeroBlock)),
               trialCandidate input (deltas.getD i zeroBlock),
               trialDigest n hash input (deltas.getD i zeroBlock)) ∧
         (∀ j, j < deltas.length →
           trialErrorNat n hash input target (deltas.getD i zeroBlock) ≤
             trialErrorNat n hash input target (deltas.getD j zeroBlock)) ∧
         (∀ j, j < i →
           trialErrorNat n hash input target (deltas.getD i zeroBlock) <
             trialErrorNat n hash input target (deltas.getD j zeroBlock)))) := by
  have hloop := sha512CpuLoop_eq_pureBest n hash input target hlen deltas
    (F32.val f32MaxNat, zeroBlock, zeroBlock) hov
  refine ⟨pureBest n hash input target deltas (F32.val f32MaxNat, zeroBlock, zeroBlock),
    hloop, ?_⟩
  rcases pureBest_char n hash input target deltas f32MaxNat zeroBlock zeroBlock with
    ⟨heq, hall⟩ | ⟨i, hi, _, hmin, hearl, heq⟩
  · by_cases hnil : deltas = []
    · subst hnil
      exact Or.inl ⟨rfl, rfl⟩
    · exfalso
      have hpos : 0 < deltas.length := List.length_pos.mpr hnil
      have h1 := hall 0 hpos
      have h2 := trialErrorNat_lt_max n hash input target (deltas.getD 0 zeroBlock) hn ht hhb
      omega
  · exact Or.inr ⟨i, hi, heq, hmin, hearl⟩

theorem sha512CpuApproximate_min_earliest_witness :
    ∃ st, sha512CpuApproximate 8 hashConst [zeroBlock] zeroBlock zeroBlock = some st ∧
      (([zeroBlock] = ([] : List Block) ∧ st = (F32.val f32MaxNat, zeroBlock, zeroBlock)) ∨
       (∃ i, i < [zeroBlock].length ∧
         st = (F32.val (trialErrorNat 8 hashConst zeroBlock zeroBlock
                 ([zeroBlock].getD i zeroBlock)),
               trialCandidate zeroBlock ([zeroBlock].getD i zeroBlock),
               trialDigest 8 hashConst zeroBlock ([zeroBlock].getD i zeroBlock)) ∧
         (∀ j, j < [zeroBlock].length →
           trialErrorNat 8 hashConst zeroBlock zeroBlock ([zeroBlock].getD i zeroBlock) ≤
             trialErrorNat 8 hashConst zeroBlock zeroBlock ([zeroBlock].getD j zeroBlock)) ∧
         (∀ j, j < i →
           trialErrorNat 8 hashConst zeroBlock zeroBlock ([zeroBlock].getD i zeroBlock) <
             trialErrorNat 8 hashConst zeroBlock zeroBlock ([zeroBlock].getD j zeroBlock)))) :=
  sha512CpuApproximate_min_earliest 8 hashConst [zeroBlock] zeroBlock zeroBlock
    (by norm_num)
    (fun bs => by simp [hashConst])
    (fun d hd r _ c _ => by
      rcases List.mem_singleton.mp hd with rfl
      simp [zeroBlock])
    (fun r _ c _ => by simp [zeroBlock])
    (fun bs v hv => by
      have hv0 : v = 0 := by simpa [hashConst] using hv
      omega)

/-- C3: running the Sequential Search Approximator on the same block pair
with `K` and then `K + 1` iterations drawn from the same random trial
sequence yields a best error for the `K + 1` run that is less than or
equal to the best error of the `K` run. -/
theorem sha512CpuApproximate_err_nonincreasing
    (n : Nat) (hash : List Nat → List Nat) (deltas : List Block) (K : Nat)
    (input target : Block)
    (hlen : ∀ bs, (hash bs).length = n * n)
    (hov : ∀ d ∈ deltas, ∀ r, r < n → ∀ c, c < n → input r c + d r c ≤ 255) :
    ∃ st1 st2,
      sha512CpuApproximate n hash (deltas.take K) input target = some st1 ∧
      sha512CpuApproximate n hash (deltas.take (K + 1)) input target = some st2 ∧
      F32.le st2.1 st1.1 = true := by
  have h1 := sha512CpuLoop_eq_pureBest n hash input target hlen (deltas.take K)
    (F32.val f32MaxNat, zeroBlock, zeroBlock)
    (fun d hd => hov d (List.take_subset K deltas hd))
  have h2 := sha512CpuLoop_eq_pureBest n hash input target hlen (deltas.take (K + 1))
    (F32.val f32MaxNat, zeroBlock, zeroBlock)
    (fun d hd => hov d (List.take_subset (K + 1) deltas hd))
  refine ⟨_, _, h1, h2, ?_⟩
  rw [pureBest_err, pureBest_err, List.take_succ]
  cases hK : deltas[K]? with
  | none =>
    simp only [hK, Option.toList_none, List.append_nil]
    exact F32.le_refl _
  | some d =>
    simp only [hK, Option.toList_some, List.foldl_append, List.foldl_cons, List.foldl_nil]
    exact F32.le_step_self _ _

theorem sha512CpuApproximate_err_nonincreasing_witness :
    ∃ st1 st2,
      sha512CpuApproximate 8 hashConst ([zeroBlock].take 0) zeroBlock zeroBlock = some st1 ∧
      sha512CpuApproximate 8 hashConst ([zeroBlock].take (0 + 1)) zeroBlock zeroBlock
        = some st2 ∧
      F32.le st2.1 st1.1 = true :=
  sha512CpuApproximate_err_nonincreasing 8 hashConst [zeroBlock] 0 zeroBlock zeroBlock
    (fun bs => by simp [hashConst])
    (fun d hd r _ c _ => by
      rcases List.mem_singleton.mp hd with rfl
      simp [zeroBlock])

/-- C2 (amended): `approximate_image` returns the two output images
(with the input's dimensions) to its caller; the accumulated scalar
total error — the `f32` left-fold sum of the per-block errors starting
from `0.0` — is computed and logged but is not part of the returned
value. -/
theorem approximateImage_images_and_total
    (approx : Block → Block → F32 × Block × Block) (input target : Image) :
    (approximateImage approx input target).1.width = input.width ∧
    (approximateImage approx input target).1.height = input.height ∧
    (approximateImage approx input target).2.width = input.width ∧
    (approximateImage approx input target).2.height = input.height ∧
    approximateImageTotalError approx input target =
      (blockErrors approx input target).foldl F32.add (F32.val 0) := by
  refine ⟨?_, ?_, ?_, ?_, ?_⟩
  · exact (driverFold_dims approx input target _ _).1.1
  · exact (driverFold_dims approx input target _ _).1.2
  · exact (driverFold_dims approx input target _ _).2.1
  · exact (driverFold_dims approx input target _ _).2.2
  · exact driverFold_total approx input target _ _

/-- C2 (counterexample): the value `approximate_image` returns does not
carry the accumulated total error.  Two approximators that return the
same blocks but different errors produce identical return values while
their accumulated totals differ, so the total cannot be part of what is
returned to the caller. -/
theorem approximateImage_total_not_returned :
    approximateImage approxConstA img8 img8 = approximateImage approxConstB img8 img8 ∧
    approximateImageTotalError approxConstA img8 img8 ≠
      approximateImageTotalError approxConstB img8 img8 :=
  ⟨rfl, by decide⟩

/-- C5: on a 16 × 16 image with block size 8 the driver visits exactly
the 4 tiles with pixel offsets `(0,0), (0,8), (8,0), (8,8)` (one
approximator invocation per visited tile), and every pixel of the
16 × 16 output grid lies in exactly one of the 4 written block regions:
full coverage, no overlap, each region written once. -/
theorem tiling_sixteen_by_sixteen :
    tileOffsets 16 16 = [(0, 0), (0, 8), (8, 0), (8, 8)] ∧
    (tiles 16 16).length = 4 ∧
    (∀ x, x < 16 → ∀ y, y < 16 →
      ((tileOffsets 16 16).countP fun o =>
        decide (o.1 ≤ x ∧ x < o.1 + 8 ∧ o.2 ≤ y ∧ y < o.2 + 8)) = 1) ∧
    (∀ (approx : Block → Block → F32 × Block × Block) (input target : Image),
      input.width = 16 → input.height = 16 →
      (blockErrors approx input target).length = 4) := by
  refine ⟨by decide, by decide, by decide, ?_⟩
  intro approx input target hw hh
  unfold blockErrors
  rw [List.length_map, hw, hh]
  decide

theorem tiling_sixteen_by_sixteen_witness :
    (((tileOffsets 16 16).countP fun o =>
        decide (o.1 ≤ 3 ∧ 3 < o.1 + 8 ∧ o.2 ≤ 11 ∧ 11 < o.2 + 8)) = 1) ∧
    (blockErrors approxConstA img16 img16).length = 4 :=
  ⟨tiling_sixteen_by_sixteen.2.2.1 3 (by decide) 11 (by decide),
   tiling_sixteen_by_sixteen.2.2.2 approxConstA img16 img16 rfl rfl⟩

/-- C9: when the input dimensions are not multiples of the block size,
every pixel outside whole-block coverage keeps, in both output images,
the value copied from the (grayscale) source image at initialisation,
and no visited tile's block region (read or written) contains such a
pixel. -/
theorem tiling_outside_coverage
    (approx : Block → Block → F32 × Block × Block) (input target : Image) (x y : Nat)
    (_hdim : input.width % 8 ≠ 0 ∨ input.height % 8 ≠ 0)
    (hout : 8 * (input.width / 8) ≤ x ∨ 8 * (input.height / 8) ≤ y) :
    (approximateImage approx input target).1.pix x y = input.pix x y ∧
    (approximateImage approx input target).2.pix x y = input.pix x y ∧
    ∀ ij ∈ tiles input.width input.height,
      ¬ (ij.1 * 8 ≤ x ∧ x < ij.1 * 8 + 8 ∧ ij.2 * 8 ≤ y ∧ y < ij.2 * 8 + 8) := by
  have hnot : (x / 8, y / 8) ∉ tiles input.width input.height := by
    intro hc
    obtain ⟨h1, h2⟩ := (mem_tiles _ _ _).mp hc
    simp only at h1 h2
    omega
  refine ⟨?_, ?_, ?_⟩
  · show (approximateImageRun approx input target).1.pix x y = input.pix x y
    unfold approximateImageRun
    rw [(driverFold_pix approx input target _ _ x y).1, if_neg hnot]
  · show (approximateImageRun approx input target).2.1.pix x y = input.pix x y
    unfold approximateImageRun
    rw [(driverFold_pix approx input target _ _ x y).2, if_neg hnot]
  · intro ij hij hreg
    obtain ⟨hi1, hi2⟩ := (mem_tiles _ _ ij).mp hij
    apply hnot
    have hfst : ij.1 = x / 8 := by omega
    have hsnd : ij.2 = y / 8 := by omega
    have : ij = (x / 8, y / 8) := by
      rw [← hfst, ← hsnd]
    rwa [this] at hij

theorem tiling_outside_coverage_witness :
    (approximateImage approxConstA img10 img10).1.pix 9 0 = img10.pix 9 0 ∧
    (approximateImage approxConstA img10 img10).2.pix 9 0 = img10.pix 9 0 ∧
    ∀ ij ∈ tiles img10.width img10.height,
      ¬ (ij.1 * 8 ≤ 9 ∧ 9 < ij.1 * 8 + 8 ∧ ij.2 * 8 ≤ 0 ∧ 0 < ij.2 * 8 + 8) :=
  tiling_outside_coverage approxConstA img10 img10 9 0 (by decide) (by decide)

/-- C10: with iteration count 0 the Sequential Search Approximator
returns the zero-initialised search state — error `f32::MAX` and two
all-zero blocks — and the tiling driver, driven by that approximator,
writes the all-zero blocks into every covered pixel of both output
images and accumulates `f32::MAX` as the error of every block. -/
theorem k0_max_error_zero_blocks :
    (∀ (n : Nat) (hash : List Nat → List Nat) (input target : Block),
      sha512CpuApproximate n hash [] input target =
        some (F32.val f32MaxNat, zeroBlock, zeroBlock)) ∧
    (∀ (input target : Image) (x y : Nat),
      x < 8 * (input.width / 8) → y < 8 * (input.height / 8) →
      (approximateImage approxK0 input target).1.pix x y = 0 ∧
      (approximateImage approxK0 input target).2.pix x y = 0) ∧
    (∀ (input target : Image),
      blockErrors approxK0 input target =
        List.replicate (tiles input.width input.height).length (F32.val f32MaxNat)) := by
  refine ⟨fun n hash input target => rfl, ?_, ?_⟩
  · intro input target x y hx hy
    have hmem : (x / 8, y / 8) ∈ tiles input.width input.height := by
      rw [mem_tiles]
      constructor
      · simp only
        omega
      · simp only
        omega
    constructor
    · show (approximateImageRun approxK0 input target).1.pix x y = 0
      unfold approximateImageRun
      rw [(driverFold_pix approxK0 input target _ _ x y).1, if_pos hmem]
      rfl
    · show (approximateImageRun approxK0 input target).2.1.pix x y = 0
      unfold approximateImageRun
      rw [(driverFold_pix approxK0 input target _ _ x y).2, if_pos hmem]
      rfl
  · intro input target
    unfold blockErrors
    have hgen : ∀ l : List (Nat × Nat),
        (l.map fun ij => (approxK0 (blockAt input ij.1 ij.2) (blockAt target ij.1 ij.2)).1) =
          List.replicate l.length (F32.val f32MaxNat) := by
      intro l
      induction l with
      | nil => rfl
      | cons a l ih => simp [ih, List.replicate_succ, approxK0]
    exact hgen _

theorem k0_max_error_zero_blocks_witness :
    sha512CpuApproximate 8 hashConst [] zeroBlock zeroBlock =
      some (F32.val f32MaxNat, zeroBlock, zeroBlock) ∧
    ((approximateImage approxK0 img16 img16).1.pix 3 11 = 0 ∧
     (approximateImage approxK0 img16 img16).2.pix 3 11 = 0) ∧
    blockErrors approxK0 img16 img16 =
      List.replicate (tiles img16.width img16.height).length (F32.val f32MaxNat) :=
  ⟨k0_max_error_zero_blocks.1 8 hashConst zeroBlock zeroBlock,
   k0_max_error_zero_blocks.2.1 img16 img16 3 11 (by decide) (by decide),
   k0_max_error_zero_blocks.2.2 img16 img16⟩

/-- C4: the digest-to-block reshape yields exactly `n` rows of `n`
columns whenever the byte length is exactly `n * n` and rejects every
other length (no truncation or padding); but the program's `compute.rs`
configuration pairs block side 16 with the 64-byte SHA-512 digest, for
which the reshape fails — the CPU approximator of `compute.rs` panics on
its first iteration because `64 ≠ 16 * 16`. -/
theorem intoShape_shape_and_digest_mismatch :
    (∀ (n : Nat) (bytes : List Nat), bytes.length = n * n →
      ∃ rows, intoShape n bytes = some rows ∧ rows.length = n ∧
        ∀ r ∈ rows, r.length = n) ∧
    (∀ (n : Nat) (bytes : List Nat), bytes.length ≠ n * n → intoShape n bytes = none) ∧
    (∀ bytes : List Nat, bytes.length = 64 → intoShape 16 bytes = none) ∧
    (∀ hash : List Nat → List Nat, (∀ bs, (hash bs).length = 64) →
      sha512CpuApproximate 16 hash [zeroBlock] zeroBlock zeroBlock = none) := by
  refine ⟨?_, ?_, ?_, ?_⟩
  · intro n bytes h
    unfold intoShape
    rw [if_pos h]
    refine ⟨_, rfl, by simp, ?_⟩
    intro r hr
    obtain ⟨m, _, rfl⟩ := List.mem_map.mp hr
    simp
  · intro n bytes h
    unfold intoShape
    rw [if_neg h]
  · intro bytes h
    unfold intoShape
    rw [if_neg (by omega)]
  · intro hash hh
    have h1 : blockAddChecked 16 zeroBlock zeroBlock =
        some (trialCandidate zeroBlock zeroBlock) := by
      unfold blockAddChecked trialCandidate
      exact if_pos (fun r _ c _ => by simp [zeroBlock])
    have h2 : mapBytesToBlock 16
        (hash (flattenBlock 16 (trialCandidate zeroBlock zeroBlock))) = none := by
      unfold mapBytesToBlock
      exact if_neg (by rw [hh]; omega)
    simp only [sha512CpuApproximate, sha512CpuLoop, sha512CpuStep, h1, h2]

theorem intoShape_shape_and_digest_mismatch_witness :
    (∃ rows, intoShape 8 (List.replicate 64 3) = some rows ∧ rows.length = 8 ∧
      ∀ r ∈ rows, r.length = 8) ∧
    intoShape 8 (List.replicate 63 3) = none ∧
    intoShape 16 (List.replicate 64 3) = none ∧
    sha512CpuApproximate 16 hashConst [zeroBlock] zeroBlock zeroBlock = none :=
  ⟨intoShape_shape_and_digest_mismatch.1 8 (List.replicate 64 3) (by simp),
   intoShape_shape_and_digest_mismatch.2.1 8 (List.replicate 63 3) (by simp),
   intoShape_shape_and_digest_mismatch.2.2.1 (List.replicate 64 3) (by simp),
   intoShape_shape_and_digest_mismatch.2.2.2 hashConst (fun bs => by simp [hashConst])⟩

/-- C6 (counterexample): the element-wise `candidate_source = source +
perturbation` addition is plain `u8` addition with no saturating or
wrapping handling: at a source block of 255s and the admissible sampled
perturbation of 1s (1 < DISTORTION) the addition overflows and the
program treats it as an error (a panic under the default build) instead
of clamping or wrapping in place. -/
theorem blockAdd_overflow_not_handled :
    blockAddChecked 8 (fun _ _ => 255) (fun _ _ => 1) = none := by
  unfold blockAddChecked
  rw [if_neg]
  intro h
  have h00 := h 0 (by omega) 0 (by omega)
  simp at h00

/-- C6 (amended): the program never reaches an overflowing addition:
`main` darkens every source pixel with `saturating_sub(DISTORTION)`
before approximation, so every source value is at most
`255 - DISTORTION`, every perturbation element is below `DISTORTION`,
and each element sum stays within `u8` range — the addition succeeds
with the exact sums and no panic can occur on program-produced blocks. -/
theorem blockAdd_no_overflow_reachable
    (n : Nat) (src delta : Block)
    (hsrc : ∀ r, r < n → ∀ c, c < n → src r c ≤ 255 - DISTORTION)
    (hdel : ∀ r, r < n → ∀ c, c < n → delta r c < DISTORTION) :
    blockAddChecked n src delta = some (trialCandidate src delta) ∧
    (∀ r, r < n → ∀ c, c < n → trialCandidate src delta r c ≤ 255) ∧
    (∀ p, p ≤ 255 → darkenPixel p ≤ 255 - DISTORTION) := by
  have hov : ∀ r, r < n → ∀ c, c < n → src r c + delta r c ≤ 255 := by
    intro r hr c hc
    have h1 := hsrc r hr c hc
    have h2 := hdel r hr c hc
    unfold DISTORTION at h1 h2
    omega
  refine ⟨?_, ?_, ?_⟩
  · unfold blockAddChecked trialCandidate
    exact if_pos hov
  · intro r hr c hc
    exact hov r hr c hc
  · intro p hp
    unfold darkenPixel DISTORTION
    omega

theorem blockAdd_no_overflow_reachable_witness :
    blockAddChecked 8 (fun _ _ => 253) (fun _ _ => 1) =
      some (trialCandidate (fun _ _ => 253) (fun _ _ => 1)) ∧
    (∀ r, r < 8 → ∀ c, c < 8 →
      trialCandidate (fun _ _ => 253) (fun _ _ => 1) r c ≤ 255) ∧
    (∀ p, p ≤ 255 → darkenPixel p ≤ 255 - DISTORTION) :=
  blockAdd_no_overflow_reachable 8 (fun _ _ => 253) (fun _ _ => 1)
    (fun r _ c _ => by show (253 : Nat) ≤ 255 - DISTORTION; decide)
    (fun r _ c _ => by show (1 : Nat) < DISTORTION; decide)

/-- C7: for every input block pair, `WgpuApproximator::approximate`
returns error exactly `0.0` and returns the unmodified input block as
the reconstructed source, alongside the reshaped kernel output. -/
theorem wgpuApproximate_zero_error (kernel : List Nat → List Nat)
    (input target : Block)
    (hlen : (kernel (flattenBlock 16 input)).length = 256) :
    ∃ dig, wgpuApproximate kernel input target = some (F32.val 0, input, dig) := by
  unfold wgpuApproximate
  have h : mapBytesToBlock 16 (wgpuRun kernel (flattenBlock 16 input)) =
      some (fun r c => (wgpuRun kernel (flattenBlock 16 input)).getD (r * 16 + c) 0) := by
    unfold mapBytesToBlock
    rw [if_pos]
    unfold wgpuRun
    rw [List.length_map, hlen]
  rw [h]
  exact ⟨_, rfl⟩

theorem wgpuApproximate_zero_error_witness :
    ∃ dig, wgpuApproximate (fun l => l) zeroBlock zeroBlock =
      some (F32.val 0, zeroBlock, dig) :=
  wgpuApproximate_zero_error (fun l => l) zeroBlock zeroBlock (by simp [flattenBlock])

/-- C8: `WgpuApproximator::run` remaps every kernel output byte equal to
the reserved sentinel `OVERFLOW` to `0` and returns every other byte
unchanged, so the sentinel never appears in the returned data. -/
theorem wgpuRun_remaps_sentinel (kernel : List Nat → List Nat)
    (numbers : List Nat) (i : Nat) :
    ((wgpuRun kernel numbers).getD i 0 =
      if (kernel numbers).getD i 0 = OVERFLOW then 0 else (kernel numbers).getD i 0) ∧
    OVERFLOW ∉ wgpuRun kernel numbers := by
  constructor
  · unfold wgpuRun
    generalize kernel numbers = l
    induction l generalizing i with
    | nil => simp [OVERFLOW]
    | cons a l ih =>
      cases i with
      | zero => simp
      | succ i => simpa using ih i
  · intro hmem
    obtain ⟨v, _, hv⟩ := List.mem_map.mp hmem
    by_cases h255 : v = OVERFLOW
    · rw [if_pos h255] at hv
      simp [OVERFLOW] at hv
    · rw [if_neg h255] at hv
      exact h255 hv

theorem wgpuRun_remaps_sentinel_witness :
    ((wgpuRun (fun l => l) [255, 3]).getD 0 0 =
      if ((fun l : List Nat => l) [255, 3]).getD 0 0 = OVERFLOW then 0
      else ((fun l : List Nat => l) [255, 3]).getD 0 0) ∧
    OVERFLOW ∉ wgpuRun (fun l => l) [255, 3] :=
  wgpuRun_remaps_sentinel (fun l => l) [255, 3] 0
